import Mathlib

/-!
Verification of the little-virtual-computer specification against the source
of `src/computer1.js` (the final variant of the file: the `memory` / `cpu` /
assembler version with `TOTAL_MEMORY_SIZE = 3100`).

The JavaScript source is shallowly embedded: memory becomes a total function
from integer addresses to values, mutation becomes explicit state passing, and
a thrown exception becomes an error value.  Because JavaScript exceptions
propagate while leaving already-performed mutations in place, the stateful
operations (`cpu.step`, `assembleAndLoadProgram`) return the mutated state
together with an optional error, rather than discarding the state on error.

JavaScript numbers are embedded exactly (integers as `Int`, and for the
memory write contract a value domain with rationals, infinities and NaN);
the programs under consideration stay far below 2^53 where doubles are exact.
-/

namespace LVC

/-! ## Memory constants (source: `const memory = { ... }`) -/

def TOTAL_MEMORY_SIZE : Int := 3100
def WORKING_MEMORY_START : Int := 0
def WORKING_MEMORY_END : Int := 1000
def PROGRAM_MEMORY_START : Int := 1000
def PROGRAM_MEMORY_END : Int := 2000
def KEYCODE_0_ADDRESS : Int := 2000
def KEYCODE_1_ADDRESS : Int := 2001
def KEYCODE_2_ADDRESS : Int := 2002
def MOUSE_X_ADDRESS : Int := 2010
def MOUSE_Y_ADDRESS : Int := 2011
def MOUSE_PIXEL_ADDRESS : Int := 2012
def MOUSE_BUTTON_ADDRESS : Int := 2013
def RANDOM_NUMBER_ADDRESS : Int := 2050
def CURRENT_TIME_ADDRESS : Int := 2051
def VIDEO_MEMORY_START : Int := 2100
def VIDEO_MEMORY_END : Int := 3000
def PROGRAM_START : Int := 1000
def SCREEN_WIDTH : Int := 30

/-! ## JavaScript number values

For the memory read/write contract we model the JavaScript number domain:
finite numbers (exact, as rationals), the two infinities, and NaN.
`jsIsNaN` embeds the source check `isNaN(value)`, which is true exactly for
NaN. `jsIsFiniteInt` is the property the specification talks about
("a finite integer"). -/

inductive JSValue where
  | num (q : Rat)
  | posInf
  | negInf
  | nan
  deriving DecidableEq, Repr

def jsIsNaN : JSValue → Bool
  | .nan => true
  | _ => false

def jsIsFiniteInt : JSValue → Bool
  | .num q => q.den == 1
  | _ => false

/-! ## Memory (source: `memory.get` / `memory.set`)

`JMem` is the value-level memory used to settle the read/write contract
claims; `Mem` is its restriction to integer contents, used by the CPU and
assembler model (every program considered by the remaining claims reads and
writes integers only, and `isNaN` is false on every integer, see
`memory_setV_int_agrees`). -/

def JMem : Type := Int → JSValue

def Mem : Type := Int → Int

def zeroJMem : JMem := fun _ => .num 0

def zeroMem : Mem := fun _ => 0

inductive MemErr where
  | outOfBounds
  | invalidValue
  deriving DecidableEq, Repr

/-- Embeds `memory.set(address, value)`: the `isNaN(value)` guard comes first
in the source, then the bounds check, then `this.ram[address] = value`. -/
def memory_setV (address : Int) (value : JSValue) (m : JMem) :
    Except MemErr JMem :=
  if jsIsNaN value then .error .invalidValue
  else if address < 0 ∨ TOTAL_MEMORY_SIZE ≤ address then .error .outOfBounds
  else .ok (fun x => if x = address then value else m x)

/-- Embeds `memory.get(address)`: bounds check, then `return this.ram[address]`. -/
def memory_getV (address : Int) (m : JMem) : Except MemErr JSValue :=
  if address < 0 ∨ TOTAL_MEMORY_SIZE ≤ address then .error .outOfBounds
  else .ok (m address)

/-- `memory.set` on the integer-valued memory; `isNaN` is false on every
integer so the `InvalidValueError` branch of the source cannot fire here
(see `memory_setV_int_agrees`). -/
def memory_set (address value : Int) (m : Mem) : Except MemErr Mem :=
  if address < 0 ∨ TOTAL_MEMORY_SIZE ≤ address then .error .outOfBounds
  else .ok (fun x => if x = address then value else m x)

/-- `memory.get` on the integer-valued memory. -/
def memory_get (address : Int) (m : Mem) : Except MemErr Int :=
  if address < 0 ∨ TOTAL_MEMORY_SIZE ≤ address then .error .outOfBounds
  else .ok (m address)

/-- Lifting an integer memory to the value-level memory. -/
def liftJ (m : Mem) : JMem := fun a => .num (m a)

/-- The integer-valued `memory_set` is the restriction of the full
value-level `memory_setV`: on integer values the `isNaN` guard never fires. -/
theorem memory_setV_int_agrees (a v : Int) (m : Mem) :
    memory_setV a (.num (v : Rat)) (liftJ m) =
      (memory_set a v m).map liftJ := by
  unfold memory_setV memory_set jsIsNaN
  by_cases h : a < 0 ∨ TOTAL_MEMORY_SIZE ≤ a
  · simp [h, Except.map]
  · simp only [h, if_false, if_neg h, Except.map]
    refine congrArg Except.ok ?_
    funext x
    by_cases hx : x = a <;> simp [liftJ, hx]

/-! ## CPU state (source: `const cpu = { programCounter, running, halted, ... }`) -/

structure Machine where
  mem : Mem
  programCounter : Int
  running : Bool
  halted : Bool

/-- `cpu.reset()`. -/
def cpu_reset (s : Machine) : Machine :=
  { s with programCounter := PROGRAM_START, halted := false, running := false }

/-! ## Input devices (source: `input.updateInputs`)

The external keyboard/mouse/clock state copied into the memory-mapped input
cells before every step.  `keysPressed` is the insertion-ordered key set. -/

structure Inputs where
  keysPressed : List Int
  mouseDown : Bool
  mouseX : Int
  mouseY : Int
  randomNumber : Int
  timeNow : Int

/-- Direct `memory.ram[a] = v` write (no bounds check in the source). -/
def ramWrite (a v : Int) (m : Mem) : Mem :=
  fun x => if x = a then v else m x

/-- Embeds `input.updateInputs()`: writes the most recent keys, mouse state,
mouse pixel address, a random number and the current time into the
memory-mapped input cells.  `mouseX`/`mouseY` are already integers in the
source (they are produced by `Math.floor`), so the `Math.floor` around them
is the identity here. -/
def updateInputs (inp : Inputs) (m : Mem) : Mem :=
  let mostRecentKeys := inp.keysPressed.reverse
  ramWrite CURRENT_TIME_ADDRESS inp.timeNow <|
  ramWrite RANDOM_NUMBER_ADDRESS inp.randomNumber <|
  ramWrite MOUSE_PIXEL_ADDRESS
    (VIDEO_MEMORY_START + inp.mouseY * SCREEN_WIDTH + inp.mouseX) <|
  ramWrite MOUSE_Y_ADDRESS inp.mouseY <|
  ramWrite MOUSE_X_ADDRESS inp.mouseX <|
  ramWrite MOUSE_BUTTON_ADDRESS (if inp.mouseDown then 1 else 0) <|
  ramWrite KEYCODE_2_ADDRESS (mostRecentKeys.getD 2 0) <|
  ramWrite KEYCODE_1_ADDRESS (mostRecentKeys.getD 1 0) <|
  ramWrite KEYCODE_0_ADDRESS (mostRecentKeys.getD 0 0) m

/-! ## Errors

JavaScript exceptions are untyped strings; we give each `throw` site of the
core its own constructor. -/

inductive Err where
  | outOfBounds
  | invalidValue
  | pcOutOfRange
  | unknownOpcode (opcode : Int)
  | divideByZero
  | moduloByZero
  | wrongOperandCount (name : String)
  | unknownInstructionName (name : String)
  | noOpcode (name : String)
  | unknownLabel (name : String)
  | notDefined (name : String)
  | nonNumericEmit
  deriving DecidableEq, Repr

def liftMemErr : MemErr → Err
  | .outOfBounds => .outOfBounds
  | .invalidValue => .invalidValue

/-- `cpu.advanceProgramCounter()`: region check, then
`memory.get(this.programCounter++)`.  Both possible throws happen before the
counter is mutated, so `Except` (discarding the state on error) is faithful
here. -/
def advanceProgramCounter (s : Machine) : Except Err (Int × Machine) :=
  if s.programCounter < PROGRAM_MEMORY_START ∨
     PROGRAM_MEMORY_END ≤ s.programCounter then .error .pcOutOfRange
  else
    match memory_get s.programCounter s.mem with
    | .error e => .error (liftMemErr e)
    | .ok v => .ok (v, { s with programCounter := s.programCounter + 1 })

/-! ## Instruction set table (source: `cpu.instructions`) -/

inductive OperandKind where
  | address
  | constant
  | pointer
  | label
  deriving DecidableEq, Repr

inductive InstrName where
  | copy_to_from
  | copy_to_from_constant
  | copy_to_from_ptr
  | copy_into_ptr_from
  | copy_address_of_label
  | add
  | add_constant
  | subtract
  | subtract_constant
  | multiply
  | multiply_constant
  | divide
  | divide_constant
  | modulo
  | modulo_constant
  | compare
  | compare_constant
  | jump_to
  | branch_if_equal
  | branch_if_equal_constant
  | branch_if_not_equal
  | branch_if_not_equal_constant
  | data
  | brk
  | halt
  deriving DecidableEq, Repr

/-- The mnemonic of each instruction as written in the source (`brk` stands
for the source's `break`, a reserved word here). -/
def nameStr : InstrName → String
  | .copy_to_from => "copy_to_from"
  | .copy_to_from_constant => "copy_to_from_constant"
  | .copy_to_from_ptr => "copy_to_from_ptr"
  | .copy_into_ptr_from => "copy_into_ptr_from"
  | .copy_address_of_label => "copy_address_of_label"
  | .add => "add"
  | .add_constant => "add_constant"
  | .subtract => "subtract"
  | .subtract_constant => "subtract_constant"
  | .multiply => "multiply"
  | .multiply_constant => "multiply_constant"
  | .divide => "divide"
  | .divide_constant => "divide_constant"
  | .modulo => "modulo"
  | .modulo_constant => "modulo_constant"
  | .compare => "compare"
  | .compare_constant => "compare_constant"
  | .jump_to => "jump_to"
  | .branch_if_equal => "branch_if_equal"
  | .branch_if_equal_constant => "branch_if_equal_constant"
  | .branch_if_not_equal => "branch_if_not_equal"
  | .branch_if_not_equal_constant => "branch_if_not_equal_constant"
  | .data => "data"
  | .brk => "break"
  | .halt => "halt"

/-- The `opcode` field of each instruction. -/
def opcodeOf : InstrName → Int
  | .copy_to_from => 9000
  | .copy_to_from_constant => 9001
  | .copy_to_from_ptr => 9002
  | .copy_into_ptr_from => 9003
  | .copy_address_of_label => 9004
  | .add => 9010
  | .add_constant => 9011
  | .subtract => 9020
  | .subtract_constant => 9021
  | .multiply => 9030
  | .multiply_constant => 9031
  | .divide => 9040
  | .divide_constant => 9041
  | .modulo => 9050
  | .modulo_constant => 9051
  | .compare => 9090
  | .compare_constant => 9091
  | .jump_to => 9100
  | .branch_if_equal => 9101
  | .branch_if_equal_constant => 9102
  | .branch_if_not_equal => 9103
  | .branch_if_not_equal_constant => 9104
  | .data => 9200
  | .brk => 9998
  | .halt => 9999

/-- The `operands` field of each instruction (name tags dropped, kind tags
kept). -/
def operandKinds : InstrName → List OperandKind
  | .copy_to_from => [.address, .address]
  | .copy_to_from_constant => [.address, .constant]
  | .copy_to_from_ptr => [.address, .pointer]
  | .copy_into_ptr_from => [.pointer, .address]
  | .copy_address_of_label => [.address, .label]
  | .add => [.address, .address, .address]
  | .add_constant => [.address, .constant, .address]
  | .subtract => [.address, .address, .address]
  | .subtract_constant => [.address, .constant, .address]
  | .multiply => [.address, .address, .address]
  | .multiply_constant => [.address, .constant, .address]
  | .divide => [.address, .address, .address]
  | .divide_constant => [.address, .constant, .address]
  | .modulo => [.address, .address, .address]
  | .modulo_constant => [.address, .constant, .address]
  | .compare => [.address, .address, .address]
  | .compare_constant => [.address, .constant, .address]
  | .jump_to => [.label]
  | .branch_if_equal => [.address, .address, .label]
  | .branch_if_equal_constant => [.address, .constant, .label]
  | .branch_if_not_equal => [.address, .address, .label]
  | .branch_if_not_equal_constant => [.address, .constant, .label]
  | .data => []
  | .brk => []
  | .halt => []

/-- Declared operand count of an instruction. -/
def arity (i : InstrName) : Nat := (operandKinds i).length

/-- `cpu.opcodesToInstructions` (built by `cpu.init()` from the table). -/
def opcodesToInstructions (opcode : Int) : Option InstrName :=
  if opcode = 9000 then some .copy_to_from
  else if opcode = 9001 then some .copy_to_from_constant
  else if opcode = 9002 then some .copy_to_from_ptr
  else if opcode = 9003 then some .copy_into_ptr_from
  else if opcode = 9004 then some .copy_address_of_label
  else if opcode = 9010 then some .add
  else if opcode = 9011 then some .add_constant
  else if opcode = 9020 then some .subtract
  else if opcode = 9021 then some .subtract_constant
  else if opcode = 9030 then some .multiply
  else if opcode = 9031 then some .multiply_constant
  else if opcode = 9040 then some .divide
  else if opcode = 9041 then some .divide_constant
  else if opcode = 9050 then some .modulo
  else if opcode = 9051 then some .modulo_constant
  else if opcode = 9090 then some .compare
  else if opcode = 9091 then some .compare_constant
  else if opcode = 9100 then some .jump_to
  else if opcode = 9101 then some .branch_if_equal
  else if opcode = 9102 then some .branch_if_equal_constant
  else if opcode = 9103 then some .branch_if_not_equal
  else if opcode = 9104 then some .branch_if_not_equal_constant
  else if opcode = 9200 then some .data
  else if opcode = 9998 then some .brk
  else if opcode = 9999 then some .halt
  else none

/-- `cpu.instructionsToOpcodes` keyed by mnemonic string (also used by the
parser to validate instruction names). -/
def lookupInstrByName (name : String) : Option InstrName :=
  if name = "copy_to_from" then some .copy_to_from
  else if name = "copy_to_from_constant" then some .copy_to_from_constant
  else if name = "copy_to_from_ptr" then some .copy_to_from_ptr
  else if name = "copy_into_ptr_from" then some .copy_into_ptr_from
  else if name = "copy_address_of_label" then some .copy_address_of_label
  else if name = "add" then some .add
  else if name = "add_constant" then some .add_constant
  else if name = "subtract" then some .subtract
  else if name = "subtract_constant" then some .subtract_constant
  else if name = "multiply" then some .multiply
  else if name = "multiply_constant" then some .multiply_constant
  else if name = "divide" then some .divide
  else if name = "divide_constant" then some .divide_constant
  else if name = "modulo" then some .modulo
  else if name = "modulo_constant" then some .modulo_constant
  else if name = "compare" then some .compare
  else if name = "compare_constant" then some .compare_constant
  else if name = "jump_to" then some .jump_to
  else if name = "branch_if_equal" then some .branch_if_equal
  else if name = "branch_if_equal_constant" then some .branch_if_equal_constant
  else if name = "branch_if_not_equal" then some .branch_if_not_equal
  else if name = "branch_if_not_equal_constant" then
    some .branch_if_not_equal_constant
  else if name = "data" then some .data
  else if name = "break" then some .brk
  else if name = "halt" then some .halt
  else none

/-! ## Instruction execution (source: the `execute` bodies)

Each `execute` body reads via `memory.get` and writes via `memory.set`; a
throw from either aborts the instruction.  In every body all reads precede
the single write, so a failing body leaves the machine unchanged, and the
result type `Option Err × Machine` returns the unchanged state on error. -/

/-- `const x = memory.get(a)` followed by the rest of the body. -/
def tryGet (a : Int) (s : Machine) (k : Int → Option Err × Machine) :
    Option Err × Machine :=
  match memory_get a s.mem with
  | .error e => (some (liftMemErr e), s)
  | .ok v => k v

/-- A final `memory.set(a, v)`. -/
def trySet (a v : Int) (s : Machine) : Option Err × Machine :=
  match memory_set a v s.mem with
  | .error e => (some (liftMemErr e), s)
  | .ok m => (none, { s with mem := m })

/-- JavaScript `Math.floor(a / b)` on integers (exact): floor division. -/
def jsFloorDiv (a b : Int) : Int := Int.fdiv a b

/-- JavaScript `a % b` on integers: remainder with the sign of the dividend. -/
def jsRem (a b : Int) : Int := Int.tmod a b

/-- The `execute` behavior of each instruction, applied to the operand values
fetched from program memory.  The catch-all arm is unreachable from
`cpu_step`, which always fetches exactly `arity` operands. -/
def execInstr : InstrName → List Int → Machine → Option Err × Machine
  | .copy_to_from, [destination, sourceAddress], s =>
    tryGet sourceAddress s fun sourceValue => trySet destination sourceValue s
  | .copy_to_from_constant, [address, sourceValue], s =>
    trySet address sourceValue s
  | .copy_to_from_ptr, [destinationAddress, sourcePointer], s =>
    tryGet sourcePointer s fun sourceAddress =>
    tryGet sourceAddress s fun sourceValue =>
    trySet destinationAddress sourceValue s
  | .copy_into_ptr_from, [destinationPointer, sourceAddress], s =>
    tryGet destinationPointer s fun destinationAddress =>
    tryGet sourceAddress s fun sourceValue =>
    trySet destinationAddress sourceValue s
  | .copy_address_of_label, [destinationAddress, labelAddress], s =>
    trySet destinationAddress labelAddress s
  | .add, [aAddress, bAddress, resultAddress], s =>
    tryGet aAddress s fun a => tryGet bAddress s fun b =>
    trySet resultAddress (a + b) s
  | .add_constant, [aAddress, b, resultAddress], s =>
    tryGet aAddress s fun a => trySet resultAddress (a + b) s
  | .subtract, [aAddress, bAddress, resultAddress], s =>
    tryGet aAddress s fun a => tryGet bAddress s fun b =>
    trySet resultAddress (a - b) s
  | .subtract_constant, [aAddress, b, resultAddress], s =>
    tryGet aAddress s fun a => trySet resultAddress (a - b) s
  | .multiply, [aAddress, bAddress, resultAddress], s =>
    tryGet aAddress s fun a => tryGet bAddress s fun b =>
    trySet resultAddress (a * b) s
  | .multiply_constant, [aAddress, b, resultAddress], s =>
    tryGet aAddress s fun a => trySet resultAddress (a * b) s
  | .divide, [aAddress, bAddress, resultAddress], s =>
    tryGet aAddress s fun a => tryGet bAddress s fun b =>
    if b = 0 then (some .divideByZero, s)
    else trySet resultAddress (jsFloorDiv a b) s
  | .divide_constant, [aAddress, b, resultAddress], s =>
    tryGet aAddress s fun a =>
    if b = 0 then (some .divideByZero, s)
    else trySet resultAddress (jsFloorDiv a b) s
  | .modulo, [aAddress, bAddress, resultAddress], s =>
    tryGet aAddress s fun a => tryGet bAddress s fun b =>
    if b = 0 then (some .moduloByZero, s)
    else trySet resultAddress (jsRem a b) s
  | .modulo_constant, [aAddress, b, resultAddress], s =>
    -- the source computes `a % b` before the zero check; the intermediate
    -- value is unused when the check throws, so the order is unobservable
    tryGet aAddress s fun a =>
    if b = 0 then (some .moduloByZero, s)
    else trySet resultAddress (jsRem a b) s
  | .compare, [aAddress, bAddress, resultAddress], s =>
    tryGet aAddress s fun a => tryGet bAddress s fun b =>
    trySet resultAddress (if a < b then -1 else if b < a then 1 else 0) s
  | .compare_constant, [aAddress, b, resultAddress], s =>
    tryGet aAddress s fun a =>
    trySet resultAddress (if a < b then -1 else if b < a then 1 else 0) s
  | .jump_to, [labelAddress], s =>
    (none, { s with programCounter := labelAddress })
  | .branch_if_equal, [aAddress, bAddress, labelAddress], s =>
    tryGet aAddress s fun a => tryGet bAddress s fun b =>
    (none, if a = b then { s with programCounter := labelAddress } else s)
  | .branch_if_equal_constant, [aAddress, b, labelAddress], s =>
    tryGet aAddress s fun a =>
    (none, if a = b then { s with programCounter := labelAddress } else s)
  | .branch_if_not_equal, [aAddress, bAddress, labelAddress], s =>
    tryGet aAddress s fun a => tryGet bAddress s fun b =>
    (none, if a ≠ b then { s with programCounter := labelAddress } else s)
  | .branch_if_not_equal_constant, [aAddress, b, labelAddress], s =>
    tryGet aAddress s fun a =>
    (none, if a ≠ b then { s with programCounter := labelAddress } else s)
  | .data, [], s => (none, s)
  | .brk, [], s => (none, { s with running := false })
  | .halt, [], s => (none, { s with running := false, halted := true })
  | _, _, s => (some .outOfBounds, s) -- unreachable: wrong operand count

/-- The operand-fetch loop of `cpu.step`:
`instructions[name].operands.map(() => this.advanceProgramCounter())`.
A failure part-way keeps the already-advanced counter, so the state is
returned alongside the result. -/
def fetchOperands : Nat → Machine → Except Err (List Int) × Machine
  | 0, s => (.ok [], s)
  | n + 1, s =>
    match advanceProgramCounter s with
    | .error e => (.error e, s)
    | .ok (v, s1) =>
      match fetchOperands n s1 with
      | (.error e, s2) => (.error e, s2)
      | (.ok vs, s2) => (.ok (v :: vs), s2)

/-- `cpu.step()`: refresh the input cells, fetch one opcode, decode it,
fetch its operands, execute.  Mutations made before a throw (the input cells
and the advanced program counter) survive the throw, as in the source. -/
def cpu_step (inp : Inputs) (s : Machine) : Option Err × Machine :=
  let s0 := { s with mem := updateInputs inp s.mem }
  match advanceProgramCounter s0 with
  | .error e => (some e, s0)
  | .ok (opcode, s1) =>
    match opcodesToInstructions opcode with
    | none => (some (.unknownOpcode opcode), s1)
    | some instructionName =>
      match fetchOperands (arity instructionName) s1 with
      | (.error e, s2) => (some e, s2)
      | (.ok operands, s2) => execInstr instructionName operands s2

/-! ## Assembler phase 1: parsing (source: `parseProgramText`) -/

/-- A parsed operand: either a number, or a raw token string (a label name,
a define name, or an unresolved name to be looked up in the define table). -/
inductive Operand where
  | num (n : Int)
  | str (s : String)
  deriving DecidableEq, Repr

/-- A parsed instruction record `{name, operands}`.  The name is kept as the
raw token string, as in the source (including the synthetic names `label`,
`define`, `data`). -/
structure Instr where
  name : String
  operands : List Operand
  deriving DecidableEq, Repr

/-- Whitespace as skipped by JavaScript `parseInt` before the digits. -/
def jsIsSpace (c : Char) : Bool :=
  c = ' ' ∨ c = '\t' ∨ c = '\n' ∨ c = '\r'

/-- The numeric value of a maximal leading run of decimal digits, or `none`
when there is no leading digit. -/
def leadingDigits (cs : List Char) : Option Nat :=
  let ds := cs.takeWhile Char.isDigit
  if ds.isEmpty then none
  else some (ds.foldl (fun acc c => acc * 10 + (c.toNat - 48)) 0)

/-- JavaScript `parseInt(token, 10)`: skip leading whitespace, an optional
sign, then a maximal run of decimal digits (trailing garbage ignored);
`none` models the `NaN` result. -/
def jsParseInt (token : String) : Option Int :=
  match token.data.dropWhile jsIsSpace with
  | '-' :: rest => (leadingDigits rest).map (fun n => -(n : Int))
  | '+' :: rest => (leadingDigits rest).map (fun n => (n : Int))
  | cs => (leadingDigits cs).map (fun n => (n : Int))

/-- `instructionsLabelOperands`: for a mnemonic, the index of its first
`label`-kind operand, if any. -/
def labelOperandIdx (i : InstrName) : Option Nat :=
  (operandKinds i).findIdx? (· = .label)

/-- `instructionsLabelOperands.get(name)` keyed by the raw name string. -/
def labelOperandIdxOfName (name : String) : Option Nat :=
  (lookupInstrByName name).bind labelOperandIdx

/-- `text.split(sep)` for a one-character separator, implemented
structurally on the character list (JavaScript semantics: splitting the
empty string yields one empty piece). -/
def splitOnChar (sep : Char) : List Char → List (List Char)
  | [] => [[]]
  | c :: rest =>
    match splitOnChar sep rest with
    | [] => [[]]  -- unreachable: the result is always non-empty
    | piece :: pieces =>
      if c = sep then [] :: piece :: pieces else (c :: piece) :: pieces

/-- The token loop of `parseProgramText` for one line: builds up the
instruction record token by token.  A first token ending in `:` produces a
synthetic `label` instruction and stops the loop (the source `break`s). -/
def parseLineTokens : List (List Char) → Instr → Instr
  | [], ins => ins
  | token :: rest, ins =>
    if token = [] then parseLineTokens rest ins
    else if ins.name = "" then
      if token.getLast? = some ':' then
        { name := "label", operands := [.str (String.mk token.dropLast)] }
      else parseLineTokens rest { ins with name := String.mk token }
    else
      let op : Operand :=
        if (ins.name = "define" ∧ ins.operands.length = 0) ∨
           labelOperandIdxOfName ins.name = some ins.operands.length then
          .str (String.mk token)
        else
          match jsParseInt (String.mk token) with
          | none => .str (String.mk token)
          | some n => .num n
      parseLineTokens rest { ins with operands := ins.operands ++ [op] }

/-- The per-line operand-count validation of `parseProgramText`.  The source
indexes `cpu.instructions[name]`, so an unknown mnemonic also throws here
(as a `TypeError` in JavaScript). -/
def validateInstr (ins : Instr) : Option Err :=
  if ins.name ≠ "" ∧ ins.name ≠ "label" ∧ ins.name ≠ "data" ∧
     ins.name ≠ "define" then
    match lookupInstrByName ins.name with
    | none => some (.unknownInstructionName ins.name)
    | some i =>
      if ins.operands.length ≠ arity i then some (.wrongOperandCount ins.name)
      else none
  else none

/-- Strip a trailing comment: `line.replace(/;.*$/, '')`. -/
def stripComment (line : List Char) : List Char :=
  line.takeWhile (· ≠ ';')

/-- Parse one source line into at most one instruction record. -/
def parseLine (line : List Char) : Except Err (Option Instr) :=
  let ins := parseLineTokens (splitOnChar ' ' (stripComment line))
    { name := "", operands := [] }
  match validateInstr ins with
  | some e => .error e
  | none => .ok (if ins.name = "" then none else some ins)

/-- The line loop of `parseProgramText`. -/
def parseLines : List (List Char) → Except Err (List Instr)
  | [] => .ok []
  | line :: rest => do
    let first ← parseLine line
    let more ← parseLines rest
    match first with
    | none => pure more
    | some ins => pure (ins :: more)

/-- The halt instruction record appended to every parse result. -/
def haltInstr : Instr := { name := "halt", operands := [] }

/-- `parseProgramText(programText)`: split into lines, parse each line, and
append a final `halt`. -/
def parseProgramText (programText : String) : Except Err (List Instr) :=
  (parseLines (splitOnChar '\n' programText.data)).map
    (fun l => l ++ [haltInstr])

/-! ## Assembler phase 2: resolve and load (source: `assembleAndLoadProgram`)

The source mutates `memory.ram` directly while walking the instruction list
and throws on the first resolution error, so the model returns the (possibly
partially written) memory next to the optional error. -/

/-- JavaScript object-key coercion for `labelAddresses[x]` / `defines[x]`:
the key is `String(x)`.  A missing operand (`operands[i]` being `undefined`)
coerces to the key string spelled `undefined`. -/
def jsKeyOf : Option Operand → String
  | some (.str s) => s
  | some (.num n) => toString n
  | none => "undefined"

/-- The first pass: walk the parsed list accumulating the load address
(`1 + operands.length` per non-label, non-define instruction, starting at
`memory.PROGRAM_START`), recording each label declaration by unconditional
overwrite into the table. -/
def buildLabels : List Instr → (String → Option Int) → Int →
    (String → Option Int)
  | [], tbl, _ => tbl
  | ins :: rest, tbl, labelAddress =>
    if ins.name = "label" then
      buildLabels rest
        (fun k => if k = jsKeyOf (ins.operands.get? 0) then some labelAddress
                  else tbl k)
        labelAddress
    else if ins.name = "define" then buildLabels rest tbl labelAddress
    else buildLabels rest tbl (labelAddress + (1 + ins.operands.length))

/-- Replace a label-name operand by its resolved address, as in the second
pass.  The source guard is `if (!labelAddress) throw`, so a label table
entry of `0` would also be rejected (falsy); entries are in fact always at
least `PROGRAM_START`. -/
def substLabel (tbl : String → Option Int) (ins : Instr) :
    Except Err (List Operand) :=
  match labelOperandIdxOfName ins.name with
  | none => .ok ins.operands
  | some labelIdx =>
    let labelKey := jsKeyOf (ins.operands.get? labelIdx)
    match tbl labelKey with
    | none => .error (.unknownLabel labelKey)
    | some labelAddress =>
      if labelAddress = 0 then .error (.unknownLabel labelKey)
      else .ok (ins.operands.set labelIdx (.num labelAddress))

/-- The operand-emission loop: numeric operands are written as-is, string
operands are looked up in the define table (`'x' in defines`, then
`defines[x]`).  When the resolved value is itself a string or `undefined`
the source would store that raw value in `ram`; in this integer-valued
memory model that is represented by the `nonNumericEmit` error (no claim
exercises a program that stores a non-number). -/
def emitOperands (ops : List Operand)
    (defines : String → Option (Option Operand)) (addr : Int) (m : Mem) :
    Option Err × (Int × Mem) :=
  match ops with
  | [] => (none, (addr, m))
  | .num v :: rest => emitOperands rest defines (addr + 1) (ramWrite addr v m)
  | .str s :: rest =>
    match defines s with
    | none => (some (.notDefined s), (addr, m))
    | some (some (.num v)) =>
      emitOperands rest defines (addr + 1) (ramWrite addr v m)
    | some (some (.str _)) => (some .nonNumericEmit, (addr, m))
    | some none => (some .nonNumericEmit, (addr, m))

/-- `data` emission: the operands are written verbatim, with no opcode and
no define substitution.  As in `emitOperands`, a string operand would be
stored raw by the source and is modelled as `nonNumericEmit`. -/
def emitData (ops : List Operand) (addr : Int) (m : Mem) :
    Option Err × (Int × Mem) :=
  match ops with
  | [] => (none, (addr, m))
  | .num v :: rest => emitData rest (addr + 1) (ramWrite addr v m)
  | .str _ :: _ => (some .nonNumericEmit, (addr, m))

/-- The second pass: skip `label`, record `define`, emit `data` verbatim,
and for every other instruction write its opcode (before any operand
resolution, as in the source) followed by its resolved operands.  The
source guard on the opcode is the falsy check `if (!opcode) throw`. -/
def loadInstrs (tbl : String → Option Int) :
    List Instr → (String → Option (Option Operand)) → Int → Mem →
    Option Err × Mem
  | [], _, _, m => (none, m)
  | ins :: rest, defines, loadingAddress, m =>
    if ins.name = "label" then loadInstrs tbl rest defines loadingAddress m
    else if ins.name = "define" then
      loadInstrs tbl rest
        (fun k => if k = jsKeyOf (ins.operands.get? 0) then
                    some (ins.operands.get? 1)
                  else defines k)
        loadingAddress m
    else if ins.name = "data" then
      match emitData ins.operands loadingAddress m with
      | (some e, (_, m1)) => (some e, m1)
      | (none, (addr1, m1)) => loadInstrs tbl rest defines addr1 m1
    else
      match lookupInstrByName ins.name with
      | none => (some (.noOpcode ins.name), m)
      | some i =>
        let opcode := opcodeOf i
        if opcode = 0 then (some (.noOpcode ins.name), m)
        else
          let m1 := ramWrite loadingAddress opcode m
          match substLabel tbl ins with
          | .error e => (some e, m1)
          | .ok ops =>
            match emitOperands ops defines (loadingAddress + 1) m1 with
            | (some e, (_, m2)) => (some e, m2)
            | (none, (addr2, m2)) => loadInstrs tbl rest defines addr2 m2

/-- `assembleAndLoadProgram(programInstructions)`: first pass builds the
label table, second pass emits machine code into memory from
`memory.PROGRAM_START`. -/
def assembleAndLoadProgram (programInstructions : List Instr) (m : Mem) :
    Option Err × Mem :=
  loadInstrs (buildLabels programInstructions (fun _ => none) PROGRAM_START)
    programInstructions (fun _ => none) PROGRAM_START m

/-! ## General-purpose definitions for the theorems below -/

/-- The all-zero input snapshot (no keys pressed, mouse at the origin). -/
def inp0 : Inputs := ⟨[], false, 0, 0, 0, 0⟩

/-! ## Claim C1: memory bounds contract -/

/-- **C1.** For every address `a` and (machine-storable, i.e. integer) value
`v`, `memory.get(a)` and `memory.set(a, v)` succeed if and only if
`0 ≤ a < TOTAL_MEMORY_SIZE` (3100); for every address outside that range
both raise the out-of-bounds error.  In this embedding an erroring
`memory.set` returns no new memory at all — the mutation in the source
happens strictly after both guards — so the memory is unchanged and no
default value or address wrapping can occur. -/
theorem memory_bounds_contract (a v : Int) (m : JMem) :
    ((∃ r, memory_getV a m = .ok r) ↔ 0 ≤ a ∧ a < TOTAL_MEMORY_SIZE) ∧
    ((∃ m1, memory_setV a (.num (v : Rat)) m = .ok m1) ↔
      0 ≤ a ∧ a < TOTAL_MEMORY_SIZE) ∧
    (¬(0 ≤ a ∧ a < TOTAL_MEMORY_SIZE) →
      memory_getV a m = .error .outOfBounds ∧
      memory_setV a (.num (v : Rat)) m = .error .outOfBounds) := by
  have hnan : jsIsNaN (.num (v : Rat)) = false := rfl
  unfold memory_getV memory_setV
  rw [hnan]
  by_cases h : a < 0 ∨ TOTAL_MEMORY_SIZE ≤ a
  · have h2 : ¬(0 ≤ a ∧ a < TOTAL_MEMORY_SIZE) := by omega
    simp [h, h2]
  · have h2 : 0 ≤ a ∧ a < TOTAL_MEMORY_SIZE := by omega
    simp [h, h2]

/-- Witness for C1 at concrete inputs: address 3100 is rejected out of
bounds, address 0 succeeds. -/
theorem memory_bounds_contract_witness :
    memory_getV 3100 zeroJMem = .error .outOfBounds ∧
    ∃ m1, memory_setV 0 (.num ((7 : Int) : Rat)) zeroJMem = .ok m1 :=
  ⟨((memory_bounds_contract 3100 7 zeroJMem).2.2 (by decide)).1,
   (memory_bounds_contract 0 7 zeroJMem).2.1.mpr (by decide)⟩

/-! ## Claim C8: which values does `memory.set` reject?

The source guard is `isNaN(value)` only, so non-integer finite values and
the infinities are accepted and stored, contrary to the claim. -/

/-- The value 2.5, exactly (numerator 5, denominator 2). -/
def twoPointFive : Rat := Rat.mk' 5 2 (by decide) (by decide)

/-- **C8, counterexample.** The claim says a write of the non-integer 2.5
(and of Infinity) to an in-range address raises the invalid-value error and
that no such value is ever stored.  In fact `memory.set(0, 2.5)` succeeds
and stores 2.5, and `memory.set(0, Infinity)` succeeds and stores Infinity:
the source only rejects NaN. -/
theorem memory_set_accepts_noninteger :
    jsIsFiniteInt (.num twoPointFive) = false ∧
    (∃ m1, memory_setV 0 (.num twoPointFive) zeroJMem = .ok m1 ∧
      m1 0 = .num twoPointFive) ∧
    (∃ m2, memory_setV 0 .posInf zeroJMem = .ok m2 ∧ m2 0 = .posInf) := by
  refine ⟨by decide, ⟨_, rfl, by decide⟩, ⟨_, rfl, by decide⟩⟩

/-- **C8, amended.** For every in-range address, `memory.set(a, v)` raises
the invalid-value error if and only if `v` is NaN; every non-NaN value —
including non-integer finite values and the infinities — is accepted and
stored verbatim. -/
theorem memory_set_invalid_iff_nan (a : Int) (v : JSValue) (m : JMem)
    (ha : 0 ≤ a ∧ a < TOTAL_MEMORY_SIZE) :
    (memory_setV a v m = .error .invalidValue ↔ jsIsNaN v = true) ∧
    (jsIsNaN v = false →
      ∃ m1, memory_setV a v m = .ok m1 ∧ m1 a = v) := by
  have h : ¬(a < 0 ∨ TOTAL_MEMORY_SIZE ≤ a) := by omega
  unfold memory_setV
  constructor
  · cases hv : jsIsNaN v <;> simp [hv, h]
  · intro hv
    refine ⟨fun x => if x = a then v else m x, ?_, ?_⟩
    · simp [hv, h]
    · simp

/-- Witness for the amended C8 at a concrete input: NaN is rejected at
address 5, while 2.5 is accepted and stored there. -/
theorem memory_set_invalid_iff_nan_witness :
    memory_setV 5 .nan zeroJMem = .error .invalidValue ∧
    ∃ m1, memory_setV 5 (.num twoPointFive) zeroJMem = .ok m1 ∧
      m1 5 = .num twoPointFive :=
  ⟨(memory_set_invalid_iff_nan 5 .nan zeroJMem (by decide)).1.mpr rfl,
   (memory_set_invalid_iff_nan 5 (.num twoPointFive) zeroJMem (by decide)).2 rfl⟩

/-! ## Claims C2 and C3: the divide instruction -/

/-- `memory.get` succeeds on every in-range address. -/
theorem memory_get_ok {a : Int} (m : Mem)
    (h : 0 ≤ a ∧ a < TOTAL_MEMORY_SIZE) : memory_get a m = .ok (m a) := by
  unfold memory_get
  rw [if_neg (by omega)]

/-- `memory.set` succeeds on every in-range address, writing the cell. -/
theorem memory_set_ok {a : Int} (v : Int) (m : Mem)
    (h : 0 ≤ a ∧ a < TOTAL_MEMORY_SIZE) :
    memory_set a v m = .ok (ramWrite a v m) := by
  unfold memory_set ramWrite
  rw [if_neg (by omega)]

/-- **C2, counterexample.** The claim says the divide instruction stores the
quotient truncated toward zero, also for negative operands, so dividing -7
by 2 would store -3.  The source computes `Math.floor(a / b)`, which rounds
toward negative infinity: with memory[0] = -7 and memory[1] = 2, executing
`divide 0 1 2` stores -4 at address 2, not -3. -/
theorem divide_truncation_counterexample :
    (execInstr .divide [0, 1, 2]
      ⟨ramWrite 0 (-7) (ramWrite 1 2 zeroMem), 1004, true, false⟩).1 = none ∧
    (execInstr .divide [0, 1, 2]
      ⟨ramWrite 0 (-7) (ramWrite 1 2 zeroMem), 1004, true, false⟩).2.mem 2
      = -4 ∧
    (-4 : Int) ≠ -3 :=
  ⟨rfl, rfl, by decide⟩

/-- **C2, amended.** For every pair of integer values a, b with b ≠ 0 stored
at in-range operand addresses, executing the divide instruction stores at
the (in-range) result address the floor of a divided by b
(`Math.floor(a / b)`, rounding toward negative infinity); for non-negative
quotients this coincides with truncation, so 7 divided by 2 stores 3, but
-7 divided by 2 stores -4. -/
theorem divide_stores_floor_quotient (s : Machine) (aA bA rA : Int)
    (haA : 0 ≤ aA ∧ aA < TOTAL_MEMORY_SIZE)
    (hbA : 0 ≤ bA ∧ bA < TOTAL_MEMORY_SIZE)
    (hrA : 0 ≤ rA ∧ rA < TOTAL_MEMORY_SIZE)
    (hb : s.mem bA ≠ 0) :
    execInstr .divide [aA, bA, rA] s =
      (none, { s with
        mem := ramWrite rA (Int.fdiv (s.mem aA) (s.mem bA)) s.mem }) := by
  simp only [execInstr, tryGet, trySet, jsFloorDiv,
    memory_get_ok s.mem haA, memory_get_ok s.mem hbA, if_neg hb,
    memory_set_ok (Int.fdiv (s.mem aA) (s.mem bA)) s.mem hrA]

/-- Witness for the amended C2: dividing 7 by 2 stores 3. -/
theorem divide_stores_floor_quotient_witness :
    execInstr .divide [0, 1, 2]
        ⟨ramWrite 0 7 (ramWrite 1 2 zeroMem), 1004, true, false⟩ =
      (none,
        ⟨ramWrite 2 3 (ramWrite 0 7 (ramWrite 1 2 zeroMem)),
          1004, true, false⟩) := by
  have h := divide_stores_floor_quotient
    ⟨ramWrite 0 7 (ramWrite 1 2 zeroMem), 1004, true, false⟩ 0 1 2
    (by decide) (by decide) (by decide) (by decide)
  refine h.trans ?_
  rfl

/-- **C3.** For every machine state in which the in-range divisor operand
address holds 0, executing the divide instruction raises the
division-by-zero error and leaves the machine — in particular the value at
the result address — unchanged. -/
theorem divide_by_zero_no_write (s : Machine) (aA bA rA : Int)
    (haA : 0 ≤ aA ∧ aA < TOTAL_MEMORY_SIZE)
    (hbA : 0 ≤ bA ∧ bA < TOTAL_MEMORY_SIZE)
    (hzero : s.mem bA = 0) :
    execInstr .divide [aA, bA, rA] s = (some .divideByZero, s) ∧
    (execInstr .divide [aA, bA, rA] s).2.mem rA = s.mem rA := by
  have hmain : execInstr .divide [aA, bA, rA] s = (some .divideByZero, s) := by
    simp [execInstr, tryGet,
      memory_get_ok s.mem haA, memory_get_ok s.mem hbA, hzero]
  exact ⟨hmain, by rw [hmain]⟩

/-- Witness for C3: with an all-zero memory, `divide 0 1 2` fails with the
division-by-zero error and address 2 still holds 0. -/
theorem divide_by_zero_no_write_witness :
    execInstr .divide [0, 1, 2] ⟨zeroMem, 1004, true, false⟩ =
      (some .divideByZero, ⟨zeroMem, 1004, true, false⟩) ∧
    (execInstr .divide [0, 1, 2] ⟨zeroMem, 1004, true, false⟩).2.mem 2 = 0 :=
  divide_by_zero_no_write ⟨zeroMem, 1004, true, false⟩ 0 1 2
    (by decide) (by decide) rfl

/-! ## Claim C7: every parse result ends with `halt` -/

/-- **C7.** For every program source text on which `parseProgramText`
returns (including the empty text, see the witness), the returned
instruction list is non-empty and its last element is the halt instruction
with zero operands. -/
theorem parse_appends_halt (programText : String) (l : List Instr)
    (h : parseProgramText programText = .ok l) :
    l ≠ [] ∧ l.getLast? = some haltInstr := by
  unfold parseProgramText at h
  cases hp : parseLines (splitOnChar '\n' programText.data) with
  | error e => rw [hp] at h; exact absurd h (by simp [Except.map])
  | ok l0 =>
    rw [hp] at h
    simp only [Except.map] at h
    cases h
    exact ⟨by simp, by simp⟩

/-- Witness for C7: the empty text parses to exactly `[halt]`. -/
theorem parse_appends_halt_witness :
    ([haltInstr] : List Instr) ≠ [] ∧
    ([haltInstr] : List Instr).getLast? = some haltInstr :=
  parse_appends_halt "" [haltInstr] rfl

/-! ## Claim C5: is `halted` terminal for `step()`?

`cpu.step` never consults the `halted` flag: stepping a halted machine
performs a normal fetch, so it refreshes the input cells, advances the
program counter, and (in the typical post-halt state) fails with an
unknown-opcode error — it is neither rejected nor a no-op.  Only the
simulator UI disables the step/run buttons while `cpu.halted` is set. -/

/-- A machine with the `halted` flag forced on. -/
def setHalted (s : Machine) : Machine := { s with halted := true }

/-- **C5, counterexample.** The claim says a `step()` on a halted machine is
rejected or a no-op, leaving the program counter unchanged.  On a halted
machine with an all-zero memory and the program counter at 1005, `step()`
advances the program counter to 1006 and throws an unknown-opcode error. -/
theorem step_after_halt_not_noop :
    (⟨zeroMem, 1005, false, true⟩ : Machine).halted = true ∧
    (cpu_step inp0 ⟨zeroMem, 1005, false, true⟩).1 =
      some (.unknownOpcode 0) ∧
    (cpu_step inp0 ⟨zeroMem, 1005, false, true⟩).2.programCounter = 1006 :=
  ⟨rfl, rfl, rfl⟩

theorem advance_setHalted (s : Machine) :
    advanceProgramCounter (setHalted s) =
      (advanceProgramCounter s).map (fun p => (p.1, setHalted p.2)) := by
  obtain ⟨m, pc, r, hl⟩ := s
  unfold advanceProgramCounter setHalted
  by_cases h : pc < PROGRAM_MEMORY_START ∨ PROGRAM_MEMORY_END ≤ pc
  · simp [h, Except.map]
  · simp only [if_neg h]
    cases hg : memory_get pc m <;> simp [Except.map]

theorem fetch_setHalted (n : Nat) (s : Machine) :
    fetchOperands n (setHalted s) =
      ((fetchOperands n s).1, setHalted (fetchOperands n s).2) := by
  induction n generalizing s with
  | zero => rfl
  | succ k ih =>
    unfold fetchOperands
    rw [advance_setHalted]
    cases ha : advanceProgramCounter s with
    | error e => simp [Except.map]
    | ok p =>
      obtain ⟨v, s1⟩ := p
      simp only [Except.map]
      rw [ih s1]
      cases hq : fetchOperands k s1 with
      | mk res s2 => cases res <;> simp

theorem exec_setHalted (name : InstrName) (ops : List Int) (s : Machine) :
    execInstr name ops (setHalted s) =
      ((execInstr name ops s).1, setHalted (execInstr name ops s).2) := by
  obtain ⟨m, pc, r, hl⟩ := s
  cases name <;>
    rcases ops with _ | ⟨a, _ | ⟨b, _ | ⟨c, _ | ⟨d, rest⟩⟩⟩⟩ <;>
    simp only [execInstr, tryGet, trySet, setHalted] <;>
    (repeat' split) <;> rfl

/-- **C5, amended.** `cpu.step` never reads the `halted` flag, so a halted
machine is stepped exactly like a non-halted one: the input cells are
refreshed, the program counter is advanced by the fetch (so the call is not
a no-op), and the typical outcome is an unknown-opcode error; the `halted`
flag itself stays set, and only a reset clears it — the "no further
stepping" of the specification is enforced by the UI (disabled buttons),
not by `cpu.step`. -/
theorem setHalted_mem (s : Machine) : (setHalted s).mem = s.mem := rfl

theorem setHalted_withMem (s : Machine) (x : Mem) :
    ({ setHalted s with mem := x }) = setHalted { s with mem := x } := rfl

theorem step_ignores_halted (inp : Inputs) (s : Machine) :
    cpu_step inp (setHalted s) =
      ((cpu_step inp s).1, setHalted (cpu_step inp s).2) := by
  simp only [cpu_step, setHalted_mem, setHalted_withMem]
  rw [advance_setHalted]
  cases ha : advanceProgramCounter { s with mem := updateInputs inp s.mem } with
  | error e => simp [Except.map]
  | ok p =>
    obtain ⟨opcode, s1⟩ := p
    simp only [Except.map]
    cases hd : opcodesToInstructions opcode with
    | none => simp
    | some name =>
      simp only []
      rw [fetch_setHalted]
      cases hq : fetchOperands (arity name) s1 with
      | mk res s2 =>
        cases res with
        | error e => simp
        | ok operands =>
          simp only []
          rw [exec_setHalted]

/-! ## Claim C4: what does a failing `assembleAndLoadProgram` leave behind?

The source writes each opcode and operand into `memory.ram` as it walks the
list and throws on the first resolution error, so everything written before
the error — including the opcode of the failing instruction itself, which
is written before its operands are resolved — stays in program memory. -/

theorem emitOperands_preserves_below (ops : List Operand)
    (defines : String → Option (Option Operand)) (addr : Int) (m : Mem)
    (a : Int) (ha : a < addr) :
    (emitOperands ops defines addr m).2.2 a = m a := by
  induction ops generalizing addr m with
  | nil => rfl
  | cons op rest ih =>
    cases op with
    | num v =>
      unfold emitOperands
      rw [ih (addr + 1) (ramWrite addr v m) (by omega)]
      unfold ramWrite
      rw [if_neg (by omega)]
    | str nm =>
      unfold emitOperands
      cases hd : defines nm with
      | none => rfl
      | some o =>
        cases o with
        | none => rfl
        | some op2 =>
          cases op2 with
          | str s2 => rfl
          | num v =>
            rw [ih (addr + 1) (ramWrite addr v m) (by omega)]
            unfold ramWrite
            rw [if_neg (by omega)]

theorem emitOperands_addr_ge (ops : List Operand)
    (defines : String → Option (Option Operand)) (addr : Int) (m : Mem) :
    addr ≤ (emitOperands ops defines addr m).2.1 := by
  induction ops generalizing addr m with
  | nil => exact le_refl _
  | cons op rest ih =>
    cases op with
    | num v =>
      unfold emitOperands
      exact le_trans (by omega) (ih (addr + 1) (ramWrite addr v m))
    | str nm =>
      unfold emitOperands
      cases hd : defines nm with
      | none => exact le_refl _
      | some o =>
        cases o with
        | none => exact le_refl _
        | some op2 =>
          cases op2 with
          | str s2 => exact le_refl _
          | num v =>
            exact le_trans (by omega) (ih (addr + 1) (ramWrite addr v m))

theorem emitData_preserves_below (ops : List Operand) (addr : Int) (m : Mem)
    (a : Int) (ha : a < addr) :
    (emitData ops addr m).2.2 a = m a := by
  induction ops generalizing addr m with
  | nil => rfl
  | cons op rest ih =>
    cases op with
    | num v =>
      unfold emitData
      rw [ih (addr + 1) (ramWrite addr v m) (by omega)]
      unfold ramWrite
      rw [if_neg (by omega)]
    | str nm => rfl

theorem emitData_addr_ge (ops : List Operand) (addr : Int) (m : Mem) :
    addr ≤ (emitData ops addr m).2.1 := by
  induction ops generalizing addr m with
  | nil => exact le_refl _
  | cons op rest ih =>
    cases op with
    | num v =>
      unfold emitData
      exact le_trans (by omega) (ih (addr + 1) (ramWrite addr v m))
    | str nm => exact le_refl _

/-- The load pass only ever writes at the current loading address or above,
so every cell below the starting address keeps its previous value — whether
or not the pass ends in an error. -/
theorem loadInstrs_preserves_below (prog : List Instr)
    (tbl : String → Option Int) (defines : String → Option (Option Operand))
    (addr : Int) (m : Mem) (a : Int) (ha : a < addr) :
    (loadInstrs tbl prog defines addr m).2 a = m a := by
  induction prog generalizing defines addr m with
  | nil => rfl
  | cons ins rest ih =>
    unfold loadInstrs
    by_cases hlab : ins.name = "label"
    · rw [if_pos hlab]; exact ih _ addr m ha
    · rw [if_neg hlab]
      by_cases hdef : ins.name = "define"
      · rw [if_pos hdef]; exact ih _ addr m ha
      · rw [if_neg hdef]
        by_cases hdata : ins.name = "data"
        · rw [if_pos hdata]
          cases he : emitData ins.operands addr m with
          | mk r p =>
            obtain ⟨addr1, m1⟩ := p
            have hm1 : m1 a = m a := by
              have := emitData_preserves_below ins.operands addr m a ha
              rw [he] at this
              exact this
            have haddr1 : addr ≤ addr1 := by
              have := emitData_addr_ge ins.operands addr m
              rw [he] at this
              exact this
            cases r with
            | none => rw [ih _ addr1 m1 (by omega)]; exact hm1
            | some e => exact hm1
        · rw [if_neg hdata]
          cases hop : lookupInstrByName ins.name with
          | none => rfl
          | some i =>
            simp only []
            by_cases hzero : opcodeOf i = 0
            · rw [if_pos hzero]
            · rw [if_neg hzero]
              have hm1 : ramWrite addr (opcodeOf i) m a = m a := by
                unfold ramWrite
                rw [if_neg (by omega)]
              cases hs : substLabel tbl ins with
              | error e => exact hm1
              | ok ops =>
                simp only []
                cases he : emitOperands ops defines (addr + 1)
                    (ramWrite addr (opcodeOf i) m) with
                | mk r p =>
                  obtain ⟨addr2, m2⟩ := p
                  have hm2 : m2 a = m a := by
                    have h0 := emitOperands_preserves_below ops defines
                      (addr + 1) (ramWrite addr (opcodeOf i) m) a (by omega)
                    rw [he] at h0
                    exact (show m2 a = _ from h0).trans hm1
                  have haddr2 : addr + 1 ≤ addr2 := by
                    have := emitOperands_addr_ge ops defines (addr + 1)
                      (ramWrite addr (opcodeOf i) m)
                    rw [he] at this
                    exact this
                  cases r with
                  | none => rw [ih _ addr2 m2 (by omega)]; exact hm2
                  | some e => exact hm2

/-- The parsed form of the two-line program used as the C4 counterexample. -/
def P4fail : List Instr :=
  [⟨"copy_to_from_constant", [.num 0, .num 5]⟩,
   ⟨"jump_to", [.str "Missing"]⟩, haltInstr]

/-- **C4, counterexample.** The claim says a failing `assembleAndLoadProgram`
leaves every memory cell unchanged.  Assembling the parsed program
`copy_to_from_constant 0 5; jump_to Missing` into a zeroed memory fails
with the unknown-label error, yet cell 1000 (PROGRAM_START) now holds the
opcode 9001 where it held 0 before: a partial program remains. -/
theorem assemble_failure_counterexample :
    parseProgramText "copy_to_from_constant 0 5\njump_to Missing" =
      .ok P4fail ∧
    (assembleAndLoadProgram P4fail zeroMem).1 =
      some (.unknownLabel "Missing") ∧
    (assembleAndLoadProgram P4fail zeroMem).2 PROGRAM_START = 9001 ∧
    zeroMem PROGRAM_START = 0 ∧ (9001 : Int) ≠ 0 :=
  ⟨rfl, rfl, rfl, rfl, by decide⟩

/-- **C4, amended.** A failing `assembleAndLoadProgram` may leave a partial
program behind: the cells written before the error (from `PROGRAM_START`
upward) keep their newly written values, and the caller must re-initialize
before another load.  What does hold is that the loader never writes below
`PROGRAM_START`: every cell below the program region is unchanged from its
value before the call. -/
theorem assemble_failure_leaves_low_memory (prog : List Instr) (m : Mem)
    (a : Int) (_hfail : (assembleAndLoadProgram prog m).1.isSome = true)
    (ha : a < PROGRAM_START) :
    (assembleAndLoadProgram prog m).2 a = m a :=
  loadInstrs_preserves_below prog _ _ PROGRAM_START m a ha

/-- Witness for the amended C4: on the failing counterexample program, cell
500 is unchanged. -/
theorem assemble_failure_leaves_low_memory_witness :
    (assembleAndLoadProgram P4fail zeroMem).2 500 = zeroMem 500 :=
  assemble_failure_leaves_low_memory P4fail zeroMem 500 rfl (by decide)

/-! ## Claim C9: duplicate label declarations -/

/-- The address of the *last* declaration of a label name, stated
independently of the table: it walks the list with the same address
accumulation as the first pass and prefers later declarations.  This is the
comparison definition for the claim's "resolves to the address of the last
declaration". -/
def lastLabelAddress : List Instr → Int → String → Option Int
  | [], _, _ => none
  | ins :: rest, labelAddress, name =>
    if ins.name = "label" then
      match lastLabelAddress rest labelAddress name with
      | some a => some a
      | none =>
        if jsKeyOf (ins.operands.get? 0) = name then some labelAddress
        else none
    else if ins.name = "define" then lastLabelAddress rest labelAddress name
    else lastLabelAddress rest (labelAddress + (1 + ins.operands.length)) name

theorem buildLabels_last (prog : List Instr) (tbl : String → Option Int)
    (addr : Int) (name : String) :
    buildLabels prog tbl addr name =
      match lastLabelAddress prog addr name with
      | some a => some a
      | none => tbl name := by
  induction prog generalizing tbl addr with
  | nil => rfl
  | cons ins rest ih =>
    unfold buildLabels lastLabelAddress
    by_cases hlab : ins.name = "label"
    · rw [if_pos hlab, if_pos hlab, ih]
      cases hl : lastLabelAddress rest addr name with
      | some a => rfl
      | none =>
        by_cases hk : jsKeyOf (ins.operands.get? 0) = name
        · rw [if_pos hk, if_pos hk.symm]
        · rw [if_neg hk, if_neg (fun h => hk h.symm)]
    · rw [if_neg hlab, if_neg hlab]
      by_cases hdef : ins.name = "define"
      · rw [if_pos hdef, if_pos hdef]
        exact ih tbl addr
      · rw [if_neg hdef, if_neg hdef]
        exact ih tbl _

/-- The parsed form of a program declaring `Foo:` twice, with a use of
`Foo` textually before both declarations. -/
def P9dup : List Instr :=
  [⟨"jump_to", [.str "Foo"]⟩,
   ⟨"label", [.str "Foo"]⟩, ⟨"copy_to_from_constant", [.num 0, .num 1]⟩,
   ⟨"label", [.str "Foo"]⟩, ⟨"copy_to_from_constant", [.num 0, .num 2]⟩,
   haltInstr]

/-- **C9.** The label table is built by unconditional overwrite in the first
pass, so for every parsed program and label name the table holds the
address of the last declaration of that name; and on a concrete program
declaring `Foo:` twice (at addresses 1002 and 1005), assembly succeeds and
the `jump_to Foo` written before both declarations resolves to 1005, the
last declaration. -/
theorem duplicate_labels_last_wins :
    (∀ prog name,
      buildLabels prog (fun _ => none) PROGRAM_START name =
        lastLabelAddress prog PROGRAM_START name) ∧
    parseProgramText
      "jump_to Foo\nFoo:\ncopy_to_from_constant 0 1\nFoo:\ncopy_to_from_constant 0 2"
      = .ok P9dup ∧
    (assembleAndLoadProgram P9dup zeroMem).1 = none ∧
    (assembleAndLoadProgram P9dup zeroMem).2 1001 = 1005 := by
  refine ⟨?_, rfl, rfl, rfl⟩
  intro prog name
  rw [buildLabels_last]
  cases lastLabelAddress prog PROGRAM_START name <;> rfl

/-! ## Claim C6: forward label references

A family of programs with a forward-referenced label: `jump_to Foo`, then an
arbitrary run of ordinary instructions, then `Foo:` followed by a target
instruction.  The claim is settled for every choice of that middle run. -/

/-- An ordinary instruction for the middle of the C6 program family: a known
mnemonic that is none of the assembler pseudo-instructions, takes no label
operand, and has purely numeric operands. -/
def plainInstr (i : Instr) : Bool :=
  (lookupInstrByName i.name).isSome &&
  !(i.name == "label") && !(i.name == "define") && !(i.name == "data") &&
  (labelOperandIdxOfName i.name).isNone &&
  i.operands.all (fun op => match op with | .num _ => true | .str _ => false)

/-- The number of memory cells a run of ordinary instructions occupies:
`1 + operands.length` each. -/
def instrsLen : List Instr → Int
  | [] => 0
  | i :: rest => 1 + i.operands.length + instrsLen rest

theorem instrsLen_cons (i : Instr) (l : List Instr) :
    instrsLen (i :: l) = 1 + i.operands.length + instrsLen l := rfl

theorem instrsLen_nonneg (l : List Instr) : 0 ≤ instrsLen l := by
  induction l with
  | nil => exact le_refl 0
  | cons i rest ih =>
    unfold instrsLen
    have : (0 : Int) ≤ i.operands.length := Int.ofNat_nonneg _
    omega

theorem opcodeOf_ne_zero (i : InstrName) : opcodeOf i ≠ 0 := by
  cases i <;> decide

theorem plainInstr_spec {i : Instr} (h : plainInstr i = true) :
    (∃ k, lookupInstrByName i.name = some k) ∧ i.name ≠ "label" ∧
    i.name ≠ "define" ∧ i.name ≠ "data" ∧
    labelOperandIdxOfName i.name = none ∧
    ∀ op ∈ i.operands, ∃ n, op = Operand.num n := by
  unfold plainInstr at h
  simp only [Bool.and_eq_true, Bool.not_eq_true', beq_eq_false_iff_ne,
    Option.isSome_iff_exists, Option.isNone_iff_eq_none,
    List.all_eq_true] at h
  obtain ⟨⟨⟨⟨⟨h1, h2⟩, h3⟩, h4⟩, h5⟩, h6⟩ := h
  refine ⟨h1, h2, h3, h4, h5, fun op hop => ?_⟩
  have := h6 op hop
  cases op with
  | num n => exact ⟨n, rfl⟩
  | str s2 => simp at this

theorem buildLabels_append_plain (mids rest : List Instr)
    (tbl : String → Option Int) (addr : Int)
    (hplain : mids.all plainInstr = true) :
    buildLabels (mids ++ rest) tbl addr =
      buildLabels rest tbl (addr + instrsLen mids) := by
  induction mids generalizing addr with
  | nil =>
    simp only [List.nil_append, instrsLen, add_zero]
  | cons i mids ih =>
    rw [List.all_cons, Bool.and_eq_true] at hplain
    obtain ⟨hi, hmids⟩ := hplain
    obtain ⟨_, hlab, hdef, _, _, _⟩ := plainInstr_spec hi
    rw [List.cons_append]
    conv_lhs => unfold buildLabels
    rw [if_neg hlab, if_neg hdef,
      ih (addr + (1 + (i.operands.length : Int))) hmids, instrsLen_cons]
    have harith : addr + (1 + (i.operands.length : Int)) + instrsLen mids =
        addr + (1 + (i.operands.length : Int) + instrsLen mids) := by omega
    rw [harith]

theorem emitOperands_nums (ops : List Operand)
    (defines : String → Option (Option Operand)) (addr : Int) (m : Mem)
    (hnum : ∀ op ∈ ops, ∃ n, op = Operand.num n) :
    (emitOperands ops defines addr m).1 = none ∧
    (emitOperands ops defines addr m).2.1 = addr + ops.length := by
  induction ops generalizing addr m with
  | nil => exact ⟨rfl, by unfold emitOperands; simp⟩
  | cons op rest ih =>
    obtain ⟨n, rfl⟩ := hnum op (List.mem_cons_self op rest)
    unfold emitOperands
    have := ih (addr + 1) (ramWrite addr n m)
      (fun o ho => hnum o (List.mem_cons_of_mem _ ho))
    refine ⟨this.1, this.2.trans ?_⟩
    simp only [List.length_cons]
    push_cast
    omega

theorem loadInstrs_append_plain (mids rest : List Instr)
    (tbl : String → Option Int) (defines : String → Option (Option Operand))
    (addr : Int) (m : Mem) (hplain : mids.all plainInstr = true) :
    ∃ m1, loadInstrs tbl (mids ++ rest) defines addr m =
        loadInstrs tbl rest defines (addr + instrsLen mids) m1 ∧
      ∀ a, a < addr → m1 a = m a := by
  induction mids generalizing addr m with
  | nil =>
    refine ⟨m, ?_, fun a _ => rfl⟩
    simp only [List.nil_append, instrsLen, add_zero]
  | cons i mids ih =>
    rw [List.all_cons, Bool.and_eq_true] at hplain
    obtain ⟨hi, hmids⟩ := hplain
    obtain ⟨⟨k, hk⟩, hlab, hdef, hdata, hlidx, hnum⟩ := plainInstr_spec hi
    have hsubst : substLabel tbl i = .ok i.operands := by
      unfold substLabel
      rw [hlidx]
    have hemit := emitOperands_nums i.operands defines (addr + 1)
      (ramWrite addr (opcodeOf k) m) hnum
    cases he : emitOperands i.operands defines (addr + 1)
        (ramWrite addr (opcodeOf k) m) with
    | mk r p =>
      obtain ⟨addr2, m2⟩ := p
      rw [he] at hemit
      obtain ⟨hr, haddr2⟩ := hemit
      have hrn : r = none := hr
      subst hrn
      have haddr2x : addr2 = addr + 1 + i.operands.length := haddr2
      have hstep : loadInstrs tbl ((i :: mids) ++ rest) defines addr m =
          loadInstrs tbl (mids ++ rest) defines addr2 m2 := by
        conv_lhs => rw [List.cons_append]; unfold loadInstrs
        rw [if_neg hlab, if_neg hdef, if_neg hdata, hk]
        simp only []
        rw [if_neg (opcodeOf_ne_zero k), hsubst]
        simp only []
        rw [he]
      obtain ⟨m3, hload, hm3⟩ := ih addr2 m2 hmids
      refine ⟨m3, ?_, fun a ha => ?_⟩
      · rw [hstep, hload]
        have haddreq : addr2 + instrsLen mids =
            addr + instrsLen (i :: mids) := by
          rw [instrsLen_cons]
          omega
        rw [haddreq]
      · have h1 : m3 a = m2 a := hm3 a (by
          have h0 : (0 : Int) ≤ i.operands.length := Int.ofNat_nonneg _
          omega)
        have h2 : m2 a = ramWrite addr (opcodeOf k) m a := by
          have h0 := emitOperands_preserves_below i.operands defines (addr + 1)
            (ramWrite addr (opcodeOf k) m) a (by omega)
          rw [he] at h0
          exact h0
        rw [h1, h2]
        unfold ramWrite
        rw [if_neg (by omega)]

/-- Reading any cell other than the one just written sees the old memory. -/
theorem ramWrite_other {a b : Int} (v : Int) (m : Mem) (hne : a ≠ b) :
    ramWrite b v m a = m a := by
  unfold ramWrite
  exact if_neg hne

/-- Reading back the cell just written sees the new value. -/
theorem ramWrite_same (b v : Int) (m : Mem) : ramWrite b v m b = v := by
  unfold ramWrite
  exact if_pos rfl

/-- `input.updateInputs` writes only to the memory-mapped input cells, all of
which lie at address 2000 or above. -/
theorem updateInputs_below2000 (inp : Inputs) (m : Mem) (a : Int)
    (ha : a < 2000) : updateInputs inp m a = m a := by
  have hx : ∀ b v (m1 : Mem), 2000 ≤ b → ramWrite b v m1 a = m1 a :=
    fun b v m1 hb => ramWrite_other v m1 (by omega)
  unfold updateInputs
  rw [hx _ _ _ (by decide), hx _ _ _ (by decide), hx _ _ _ (by decide),
    hx _ _ _ (by decide), hx _ _ _ (by decide), hx _ _ _ (by decide),
    hx _ _ _ (by decide), hx _ _ _ (by decide), hx _ _ _ (by decide)]

/-! ### Single-instruction stepping lemmas for the two assembler passes -/

theorem buildLabels_cons_other (i : Instr) (rest : List Instr)
    (tbl : String → Option Int) (addr : Int)
    (hlab : i.name ≠ "label") (hdef : i.name ≠ "define") :
    buildLabels (i :: rest) tbl addr =
      buildLabels rest tbl (addr + (1 + i.operands.length)) := by
  conv_lhs => unfold buildLabels
  rw [if_neg hlab, if_neg hdef]

theorem buildLabels_cons_label (i : Instr) (rest : List Instr)
    (tbl : String → Option Int) (addr : Int) (hlab : i.name = "label") :
    buildLabels (i :: rest) tbl addr =
      buildLabels rest
        (fun k => if k = jsKeyOf (i.operands.get? 0) then some addr
                  else tbl k) addr := by
  conv_lhs => unfold buildLabels
  rw [if_pos hlab]

theorem loadInstrs_cons_label (tbl : String → Option Int) (i : Instr)
    (rest : List Instr) (defines : String → Option (Option Operand))
    (addr : Int) (m : Mem) (hlab : i.name = "label") :
    loadInstrs tbl (i :: rest) defines addr m =
      loadInstrs tbl rest defines addr m := by
  conv_lhs => unfold loadInstrs
  rw [if_pos hlab]

theorem loadInstrs_cons_normal (tbl : String → Option Int) (i : Instr)
    (rest : List Instr) (defines : String → Option (Option Operand))
    (addr : Int) (m : Mem) (k : InstrName)
    (hlab : i.name ≠ "label") (hdef : i.name ≠ "define")
    (hdata : i.name ≠ "data") (hk : lookupInstrByName i.name = some k)
    (ops : List Operand) (hs : substLabel tbl i = .ok ops)
    (addr2 : Int) (m2 : Mem)
    (he : emitOperands ops defines (addr + 1) (ramWrite addr (opcodeOf k) m) =
      (none, addr2, m2)) :
    loadInstrs tbl (i :: rest) defines addr m =
      loadInstrs tbl rest defines addr2 m2 := by
  conv_lhs => unfold loadInstrs
  rw [if_neg hlab, if_neg hdef, if_neg hdata, hk]
  simp only []
  rw [if_neg (opcodeOf_ne_zero k), hs]
  simp only []
  rw [he]

/-! ### The C6 program family and its assembly -/

/-- The C6 program family: `jump_to Foo`, an arbitrary run of ordinary
instructions, then `Foo:` followed by a target instruction and the appended
`halt`. -/
def P6 (mids : List Instr) : List Instr :=
  ⟨"jump_to", [.str "Foo"]⟩ ::
    (mids ++
      [⟨"label", [.str "Foo"]⟩,
       ⟨"copy_to_from_constant", [.num 0, .num 2]⟩, haltInstr])

/-- The first-pass address of the label `Foo` in `P6 mids`: the program
base, plus 2 cells for the jump, plus the cells of the middle run. -/
def fooAddr (mids : List Instr) : Int := 1002 + instrsLen mids

theorem P6_label_table (mids : List Instr)
    (hplain : mids.all plainInstr = true) :
    buildLabels (P6 mids) (fun _ => none) PROGRAM_START "Foo" =
      some (fooAddr mids) := by
  unfold P6
  rw [buildLabels_cons_other ⟨"jump_to", [.str "Foo"]⟩
    (mids ++ [⟨"label", [.str "Foo"]⟩,
      ⟨"copy_to_from_constant", [.num 0, .num 2]⟩, haltInstr])
    (fun _ => none) PROGRAM_START (by decide) (by decide)]
  rw [buildLabels_append_plain mids
    [⟨"label", [.str "Foo"]⟩,
      ⟨"copy_to_from_constant", [.num 0, .num 2]⟩, haltInstr]
    (fun _ => none) _ hplain]
  rw [buildLabels_cons_label ⟨"label", [.str "Foo"]⟩
    [⟨"copy_to_from_constant", [.num 0, .num 2]⟩, haltInstr]
    (fun _ => none) _ rfl]
  rw [buildLabels_cons_other ⟨"copy_to_from_constant", [.num 0, .num 2]⟩
    [haltInstr] _ _ (by decide) (by decide)]
  rw [buildLabels_cons_other haltInstr [] _ _ (by decide) (by decide)]
  conv_lhs => unfold buildLabels
  simp only []
  rw [if_pos (show ("Foo" : String) = jsKeyOf
    ((⟨"label", [.str "Foo"]⟩ : Instr).operands.get? 0) from rfl)]
  refine congrArg some ?_
  unfold fooAddr
  have h1 : ((⟨"jump_to", [.str "Foo"]⟩ : Instr).operands.length : Int) = 1 :=
    rfl
  rw [h1]
  unfold PROGRAM_START
  omega

theorem fooAddr_ge (mids : List Instr) : 1002 ≤ fooAddr mids := by
  unfold fooAddr
  have := instrsLen_nonneg mids
  omega

/-- **C6.** For every middle run of ordinary instructions `mids`, the
program `jump_to Foo; mids; Foo:; copy_to_from_constant 0 2` (with the
parser's appended halt) assembles successfully; the jump operand cell 1001
holds exactly `fooAddr mids = PROGRAM_START + 2 + instrsLen mids`, the
load address of the first instruction emitted after `Foo:` (that cell holds
its opcode 9001), as computed by the first pass accumulating
`1 + operand_count` per non-label, non-define instruction from the
program-memory base; and executing the assembled `jump_to` from the reset
program counter succeeds and sets the program counter to exactly that
address. -/
theorem forward_label_jump (mids : List Instr)
    (hplain : mids.all plainInstr = true) :
    (assembleAndLoadProgram (P6 mids) zeroMem).1 = none ∧
    (assembleAndLoadProgram (P6 mids) zeroMem).2 1001 = fooAddr mids ∧
    (assembleAndLoadProgram (P6 mids) zeroMem).2 (fooAddr mids) =
      opcodeOf .copy_to_from_constant ∧
    (cpu_step inp0 ⟨(assembleAndLoadProgram (P6 mids) zeroMem).2,
      PROGRAM_START, false, false⟩).1 = none ∧
    (cpu_step inp0 ⟨(assembleAndLoadProgram (P6 mids) zeroMem).2,
      PROGRAM_START, false, false⟩).2.programCounter = fooAddr mids := by
  have htbl := P6_label_table mids hplain
  have hF0 : fooAddr mids ≠ 0 := by have := fooAddr_ge mids; omega
  set tbl := buildLabels (P6 mids) (fun _ => none) PROGRAM_START with htbldef
  set F := fooAddr mids with hFdef
  -- the jump instruction resolves and loads its opcode and operand
  have hs1 : substLabel tbl ⟨"jump_to", [.str "Foo"]⟩ = .ok [.num F] := by
    unfold substLabel
    rw [show labelOperandIdxOfName (Instr.mk "jump_to" [.str "Foo"]).name =
      some 0 from by decide]
    simp only []
    rw [show jsKeyOf ((Instr.mk "jump_to" [.str "Foo"]).operands.get? 0) =
      "Foo" from rfl, htbl]
    simp only []
    rw [if_neg hF0]
    rfl
  have hcopy : substLabel tbl ⟨"copy_to_from_constant", [.num 0, .num 2]⟩ =
      .ok [.num 0, .num 2] := by
    unfold substLabel
    rw [show labelOperandIdxOfName
      (Instr.mk "copy_to_from_constant" [.num 0, .num 2]).name = none from
      by decide]
  have hhalt : substLabel tbl haltInstr = .ok ([] : List Operand) := by
    unfold substLabel
    rw [show labelOperandIdxOfName haltInstr.name = none from by decide]
    rfl
  -- the load pass, one instruction at a time
  have hload1 := loadInstrs_cons_normal tbl ⟨"jump_to", [.str "Foo"]⟩
    (mids ++ [⟨"label", [.str "Foo"]⟩,
      ⟨"copy_to_from_constant", [.num 0, .num 2]⟩, haltInstr])
    (fun _ => none) 1000 zeroMem .jump_to
    (by decide) (by decide) (by decide) (by decide) [.num F] hs1
    1002 (ramWrite 1001 F (ramWrite 1000 9100 zeroMem)) rfl
  obtain ⟨m1, hmid, hm1low⟩ := loadInstrs_append_plain mids
    [⟨"label", [.str "Foo"]⟩, ⟨"copy_to_from_constant", [.num 0, .num 2]⟩,
      haltInstr]
    tbl (fun _ => none) 1002 (ramWrite 1001 F (ramWrite 1000 9100 zeroMem))
    hplain
  have hlabelskip := loadInstrs_cons_label tbl ⟨"label", [.str "Foo"]⟩
    [⟨"copy_to_from_constant", [.num 0, .num 2]⟩, haltInstr]
    (fun _ => none) (1002 + instrsLen mids) m1 rfl
  have hload2 := loadInstrs_cons_normal tbl
    ⟨"copy_to_from_constant", [.num 0, .num 2]⟩ [haltInstr]
    (fun _ => none) (1002 + instrsLen mids) m1 .copy_to_from_constant
    (by decide) (by decide) (by decide) (by decide) [.num 0, .num 2] hcopy
    (1002 + instrsLen mids + 1 + 1 + 1)
    (ramWrite (1002 + instrsLen mids + 1 + 1) 2
      (ramWrite (1002 + instrsLen mids + 1) 0
        (ramWrite (1002 + instrsLen mids) 9001 m1))) rfl
  have hload3 := loadInstrs_cons_normal tbl haltInstr []
    (fun _ => none) (1002 + instrsLen mids + 1 + 1 + 1)
    (ramWrite (1002 + instrsLen mids + 1 + 1) 2
      (ramWrite (1002 + instrsLen mids + 1) 0
        (ramWrite (1002 + instrsLen mids) 9001 m1)))
    .halt (by decide) (by decide) (by decide) (by decide) [] hhalt
    (1002 + instrsLen mids + 1 + 1 + 1 + 1)
    (ramWrite (1002 + instrsLen mids + 1 + 1 + 1) 9999
      (ramWrite (1002 + instrsLen mids + 1 + 1) 2
        (ramWrite (1002 + instrsLen mids + 1) 0
          (ramWrite (1002 + instrsLen mids) 9001 m1)))) rfl
  have hfin : assembleAndLoadProgram (P6 mids) zeroMem =
      (none, ramWrite (1002 + instrsLen mids + 1 + 1 + 1) 9999
        (ramWrite (1002 + instrsLen mids + 1 + 1) 2
          (ramWrite (1002 + instrsLen mids + 1) 0
            (ramWrite (1002 + instrsLen mids) 9001 m1)))) := by
    unfold assembleAndLoadProgram
    rw [← htbldef]
    show loadInstrs tbl (P6 mids) (fun _ => none) 1000 zeroMem = _
    unfold P6
    rw [hload1, hmid, hlabelskip, hload2, hload3]
    conv_lhs => unfold loadInstrs
  -- the final memory at the interesting cells
  have hLnn : (0 : Int) ≤ instrsLen mids := instrsLen_nonneg mids
  have hup : ∀ a : Int, a < 1002 →
      ramWrite (1002 + instrsLen mids + 1 + 1 + 1) 9999
        (ramWrite (1002 + instrsLen mids + 1 + 1) 2
          (ramWrite (1002 + instrsLen mids + 1) 0
            (ramWrite (1002 + instrsLen mids) 9001 m1))) a = m1 a := by
    intro a ha
    rw [ramWrite_other _ _ (by omega)]
    rw [ramWrite_other _ _ (by omega)]
    rw [ramWrite_other _ _ (by omega)]
    exact ramWrite_other _ _ (by omega)
  have hcell1001 : (assembleAndLoadProgram (P6 mids) zeroMem).2 1001 = F := by
    rw [hfin]
    dsimp only
    rw [hup 1001 (by omega), hm1low 1001 (by omega),
      ramWrite_same 1001 F (ramWrite 1000 9100 zeroMem)]
  have hcellF : (assembleAndLoadProgram (P6 mids) zeroMem).2
      (1002 + instrsLen mids) = 9001 := by
    rw [hfin]
    dsimp only
    rw [ramWrite_other _ _ (by omega)]
    rw [ramWrite_other _ _ (by omega)]
    rw [ramWrite_other _ _ (by omega)]
    exact ramWrite_same (1002 + instrsLen mids) 9001 m1
  have hcell1000 : (assembleAndLoadProgram (P6 mids) zeroMem).2 1000 = 9100 := by
    rw [hfin]
    dsimp only
    rw [hup 1000 (by omega), hm1low 1000 (by omega),
      @ramWrite_other 1000 1001 F (ramWrite 1000 9100 zeroMem) (by omega),
      ramWrite_same 1000 9100 zeroMem]
  -- executing the first step from reset: the jump lands on F
  set mfin := (assembleAndLoadProgram (P6 mids) zeroMem).2 with hmfin
  have hstep : cpu_step inp0 ⟨mfin, PROGRAM_START, false, false⟩ =
      (none, ⟨updateInputs inp0 mfin, F, false, false⟩) := by
    have hum0 : updateInputs inp0 mfin 1000 = 9100 := by
      rw [updateInputs_below2000 _ _ _ (by decide)]
      exact hcell1000
    have hum1 : updateInputs inp0 mfin 1001 = F := by
      rw [updateInputs_below2000 _ _ _ (by decide)]
      exact hcell1001
    have ha1 : advanceProgramCounter
        ⟨updateInputs inp0 mfin, 1000, false, false⟩ =
        .ok (9100, ⟨updateInputs inp0 mfin, 1001, false, false⟩) := by
      unfold advanceProgramCounter
      dsimp only
      rw [if_neg (by decide), memory_get_ok _ (by decide), hum0]
      rfl
    have ha2 : advanceProgramCounter
        ⟨updateInputs inp0 mfin, 1001, false, false⟩ =
        .ok (F, ⟨updateInputs inp0 mfin, 1002, false, false⟩) := by
      unfold advanceProgramCounter
      dsimp only
      rw [if_neg (by decide), memory_get_ok _ (by decide), hum1]
      rfl
    show cpu_step inp0 ⟨mfin, 1000, false, false⟩ = _
    simp only [cpu_step]
    rw [ha1]
    simp only []
    rw [show opcodesToInstructions 9100 = some InstrName.jump_to from rfl]
    simp only []
    rw [show arity InstrName.jump_to = 1 from rfl]
    unfold fetchOperands
    rw [ha2]
    simp only []
    rfl
  refine ⟨?_, hcell1001, hcellF, ?_, ?_⟩
  · rw [hfin]
  · rw [hstep]
  · rw [hstep]

/-- Witness for C6: the concrete program text
`jump_to Foo; copy_to_from_constant 0 1; Foo:; copy_to_from_constant 0 2`
parses to `P6 [copy_to_from_constant 0 1]`, and there the jump operand cell
holds 1005 and the first executed step sets the program counter to 1005. -/
theorem forward_label_jump_witness :
    parseProgramText
      "jump_to Foo\ncopy_to_from_constant 0 1\nFoo:\ncopy_to_from_constant 0 2"
      = .ok (P6 [⟨"copy_to_from_constant", [.num 0, .num 1]⟩]) ∧
    (assembleAndLoadProgram (P6 [⟨"copy_to_from_constant", [.num 0, .num 1]⟩])
      zeroMem).1 = none ∧
    (assembleAndLoadProgram (P6 [⟨"copy_to_from_constant", [.num 0, .num 1]⟩])
      zeroMem).2 1001 = 1005 ∧
    (cpu_step inp0 ⟨(assembleAndLoadProgram
      (P6 [⟨"copy_to_from_constant", [.num 0, .num 1]⟩]) zeroMem).2,
      PROGRAM_START, false, false⟩).2.programCounter = 1005 := by
  have h := forward_label_jump [⟨"copy_to_from_constant", [.num 0, .num 1]⟩]
    (by decide)
  have hF : fooAddr [⟨"copy_to_from_constant", [.num 0, .num 1]⟩] = 1005 := by
    decide
  exact ⟨rfl, h.1, hF ▸ h.2.1, hF ▸ h.2.2.2.2⟩

/-! ## Claim C10: the program counter after a successful step

For every instruction whose execute behavior does not assign the program
counter — every instruction except `jump_to` and a taken branch — a
successful `cpu.step` leaves the counter exactly
`1 + operand count` past where it started, and every fetched cell lay in
the program-memory region. -/

/-- Whether the execute behavior of `name`, run on operand values `ops`
over memory `m`, assigns the program counter: `jump_to` always does, a
branch does exactly when its condition holds, nothing else ever does. -/
def assignsPCOps (name : InstrName) (ops : List Int) (m : Mem) : Bool :=
  match name, ops with
  | .jump_to, _ => true
  | .branch_if_equal, [aAddress, bAddress, _] => m aAddress == m bAddress
  | .branch_if_equal_constant, [aAddress, b, _] => m aAddress == b
  | .branch_if_not_equal, [aAddress, bAddress, _] => !(m aAddress == m bAddress)
  | .branch_if_not_equal_constant, [aAddress, b, _] => !(m aAddress == b)
  | _, _ => false

/-- `assignsPCOps` applied to the operand cells as laid out in program
memory right after the opcode at `pc`. -/
def assignsPC (name : InstrName) (m : Mem) (pc : Int) : Bool :=
  assignsPCOps name
    ((List.range (arity name)).map (fun i : Nat => m (pc + 1 + (i : Int)))) m

theorem memory_get_ok_val {a : Int} {m : Mem} {v : Int}
    (h : memory_get a m = .ok v) : v = m a := by
  unfold memory_get at h
  split at h
  · cases h
  · exact (Except.ok.inj h).symm

theorem advance_ok {s : Machine} {v : Int} {s1 : Machine}
    (h : advanceProgramCounter s = .ok (v, s1)) :
    PROGRAM_MEMORY_START ≤ s.programCounter ∧
    s.programCounter < PROGRAM_MEMORY_END ∧
    v = s.mem s.programCounter ∧
    s1 = { s with programCounter := s.programCounter + 1 } := by
  unfold advanceProgramCounter at h
  by_cases hr : s.programCounter < PROGRAM_MEMORY_START ∨
      PROGRAM_MEMORY_END ≤ s.programCounter
  · rw [if_pos hr] at h
    cases h
  · rw [if_neg hr] at h
    push_neg at hr
    rw [memory_get_ok s.mem (by
      unfold PROGRAM_MEMORY_START PROGRAM_MEMORY_END at hr
      unfold TOTAL_MEMORY_SIZE
      omega)] at h
    injection h with h1
    rw [Prod.mk.injEq] at h1
    exact ⟨hr.1, hr.2, h1.1.symm, h1.2.symm⟩

theorem fetch_ok (n : Nat) (s : Machine) (ops : List Int) (s2 : Machine)
    (h : fetchOperands n s = (.ok ops, s2)) :
    s2.mem = s.mem ∧ s2.running = s.running ∧ s2.halted = s.halted ∧
    s2.programCounter = s.programCounter + n ∧
    ops = (List.range n).map
      (fun i : Nat => s.mem (s.programCounter + (i : Int))) ∧
    ∀ i : Nat, i < n →
      PROGRAM_MEMORY_START ≤ s.programCounter + i ∧
      s.programCounter + i < PROGRAM_MEMORY_END := by
  induction n generalizing s ops with
  | zero =>
    unfold fetchOperands at h
    rw [Prod.mk.injEq] at h
    obtain ⟨h1, h2⟩ := h
    injection h1 with h1
    subst h2
    subst h1
    refine ⟨rfl, rfl, rfl, by omega, by simp, fun i hi => absurd hi (by omega)⟩
  | succ k ih =>
    unfold fetchOperands at h
    cases ha : advanceProgramCounter s with
    | error e => rw [ha] at h; cases h
    | ok p =>
      obtain ⟨v, s1⟩ := p
      rw [ha] at h
      dsimp only at h
      obtain ⟨hr1, hr2, hval, hs1⟩ := advance_ok ha
      cases hq : fetchOperands k s1 with
      | mk res s2x =>
        rw [hq] at h
        cases res with
        | error e => cases h
        | ok vs =>
          rw [Prod.mk.injEq] at h
          obtain ⟨h1, h2⟩ := h
          injection h1 with h1
          subst h2
          subst h1
          obtain ⟨hm, hrun, hhal, hpc, hops, hreg⟩ := ih s1 vs hq
          have hs1pc : s1.programCounter = s.programCounter + 1 := by
            rw [hs1]
          have hs1mem : s1.mem = s.mem := by rw [hs1]
          refine ⟨by rw [hm, hs1mem], by rw [hrun, hs1], by rw [hhal, hs1],
            ?_, ?_, ?_⟩
          · rw [hpc, hs1pc]
            push_cast
            omega
          · rw [hops, hval, hs1mem, hs1pc]
            rw [List.range_succ_eq_map, List.map_cons, List.map_map]
            refine congrArg₂ List.cons (by simp) ?_
            refine List.map_congr_left fun i _ => ?_
            show s.mem (s.programCounter + 1 + (i : Int)) =
              s.mem (s.programCounter + ((i + 1 : Nat) : Int))
            refine congrArg s.mem ?_
            push_cast
            omega
          · intro i hi
            cases i with
            | zero => exact ⟨by simpa using hr1, by simpa using hr2⟩
            | succ j =>
              have := hreg j (by omega)
              rw [hs1pc] at this
              constructor
              · have h0 := this.1
                push_cast at h0 ⊢
                omega
              · have h0 := this.2
                push_cast at h0 ⊢
                omega

/-- A successful execute that does not assign the program counter leaves it
unchanged (and an erroring execute leaves it unchanged too). -/
theorem exec_pc (name : InstrName) (ops : List Int) (s : Machine)
    (hnp : assignsPCOps name ops s.mem = false) :
    (execInstr name ops s).2.programCounter = s.programCounter := by
  cases name <;>
    rcases ops with _ | ⟨a, _ | ⟨b, _ | ⟨c, _ | ⟨d, rest⟩⟩⟩⟩ <;>
    try first
      | rfl
      | (simp only [execInstr, tryGet, trySet]; (repeat' split) <;> rfl)
  -- remaining: jump_to [a] and the four branches with three operands
  · -- jump_to
    exact absurd hnp (by simp [assignsPCOps])
  · -- branch_if_equal
    simp only [assignsPCOps] at hnp
    have hne : s.mem a ≠ s.mem b := by simpa using hnp
    simp only [execInstr, tryGet]
    cases hga : memory_get a s.mem with
    | error e => rfl
    | ok v =>
      cases hgb : memory_get b s.mem with
      | error e => rfl
      | ok w =>
        have hv := memory_get_ok_val hga
        have hw := memory_get_ok_val hgb
        subst hv
        subst hw
        dsimp only
        rw [if_neg hne]
  · -- branch_if_equal_constant
    simp only [assignsPCOps] at hnp
    have hne : s.mem a ≠ b := by simpa using hnp
    simp only [execInstr, tryGet]
    cases hga : memory_get a s.mem with
    | error e => rfl
    | ok v =>
      have hv := memory_get_ok_val hga
      subst hv
      dsimp only
      rw [if_neg hne]
  · -- branch_if_not_equal
    simp only [assignsPCOps] at hnp
    have heq : s.mem a = s.mem b := by simpa using hnp
    simp only [execInstr, tryGet]
    cases hga : memory_get a s.mem with
    | error e => rfl
    | ok v =>
      cases hgb : memory_get b s.mem with
      | error e => rfl
      | ok w =>
        have hv := memory_get_ok_val hga
        have hw := memory_get_ok_val hgb
        subst hv
        subst hw
        dsimp only
        rw [if_neg (fun hcon => hcon heq)]
  · -- branch_if_not_equal_constant
    simp only [assignsPCOps] at hnp
    have heq : s.mem a = b := by simpa using hnp
    simp only [execInstr, tryGet]
    cases hga : memory_get a s.mem with
    | error e => rfl
    | ok v =>
      have hv := memory_get_ok_val hga
      subst hv
      dsimp only
      rw [if_neg (fun hcon => hcon heq)]

/-- **C10.** For every successful `cpu.step` decoding an instruction whose
execute behavior does not assign the program counter (every instruction
except `jump_to` and a taken branch), the counter afterwards equals its
value before plus 1 plus the instruction's declared operand count, and the
fetch phase read exactly those cells — opcode and operands — each with the
counter inside the program-memory region. -/
theorem step_pc_advance (inp : Inputs) (s : Machine) (name : InstrName)
    (hdec : opcodesToInstructions
      (updateInputs inp s.mem s.programCounter) = some name)
    (hok : (cpu_step inp s).1 = none)
    (hnp : assignsPC name (updateInputs inp s.mem) s.programCounter = false) :
    (cpu_step inp s).2.programCounter =
      s.programCounter + 1 + (arity name : Int) ∧
    ∀ i : Nat, i ≤ arity name →
      PROGRAM_MEMORY_START ≤ s.programCounter + (i : Int) ∧
      s.programCounter + (i : Int) < PROGRAM_MEMORY_END := by
  simp only [cpu_step] at hok ⊢
  cases ha : advanceProgramCounter { s with mem := updateInputs inp s.mem } with
  | error e =>
    rw [ha] at hok
    simp at hok
  | ok p =>
    obtain ⟨opcode, s1⟩ := p
    rw [ha] at hok
    dsimp only at hok ⊢
    obtain ⟨hr1, hr2, hval, hs1⟩ := advance_ok ha
    have hr1x : PROGRAM_MEMORY_START ≤ s.programCounter := hr1
    have hr2x : s.programCounter < PROGRAM_MEMORY_END := hr2
    have hopc : opcode = updateInputs inp s.mem s.programCounter := hval
    rw [hopc, hdec] at hok ⊢
    dsimp only at hok ⊢
    cases hq : fetchOperands (arity name) s1 with
    | mk res s2 =>
      rw [hq] at hok
      cases res with
      | error e => simp at hok
      | ok ops =>
        dsimp only at hok ⊢
        obtain ⟨hm2, hrun2, hhal2, hpc2, hops, hreg⟩ :=
          fetch_ok (arity name) s1 ops s2 hq
        have hs1pc : s1.programCounter = s.programCounter + 1 := by rw [hs1]
        have hs1mem : s1.mem = updateInputs inp s.mem := by rw [hs1]
        rw [hs1mem, hs1pc] at hops
        constructor
        · have hnpo : assignsPCOps name ops s2.mem = false := by
            rw [hm2, hs1mem, hops]
            unfold assignsPC at hnp
            exact hnp
          rw [exec_pc name ops s2 hnpo, hpc2, hs1pc]
        · intro i hi
          cases i with
          | zero => exact ⟨by simpa using hr1x, by simpa using hr2x⟩
          | succ j =>
            have hj := hreg j (by omega)
            rw [hs1pc] at hj
            constructor
            · have h0 := hj.1
              push_cast at h0 ⊢
              omega
            · have h0 := hj.2
              push_cast at h0 ⊢
              omega

/-- Witness for C10: a concrete successful step of
`copy_to_from_constant 0 4` (opcode 9001, two operands) at program counter
1000 lands on 1003 = 1000 + 1 + 2. -/
theorem step_pc_advance_witness :
    (cpu_step inp0 ⟨ramWrite 1002 4 (ramWrite 1000 9001 zeroMem),
      1000, true, false⟩).2.programCounter = 1000 + 1 + (2 : Int) :=
  (step_pc_advance inp0
    ⟨ramWrite 1002 4 (ramWrite 1000 9001 zeroMem), 1000, true, false⟩
    .copy_to_from_constant rfl rfl rfl).1

end LVC
